import Mathlib

/-!
Verification of the numerical core of the Graph-Representation-Learning tutorial
repository: the transition-matrix builder (`D_inv = np.diagflat(1.0 / A.sum(axis=1))`,
`P = A @ D_inv`), the PageRank / Personalized PageRank solvers
(`PP_s = alpha * matrix_power(I - (1 - alpha) * P, -1)`), the graph Laplacian
(`L = D - A`) and the Laplacian spectral embedder
(`order = np.argsort(w); v = v[:, order[1:(embedding_size + 1)]]`).
All matrices are embedded over the rationals.
-/

open Matrix Finset

namespace GraphRL

variable {n : ℕ}

/-- Degree of node `i`: the row sum `A.sum(axis=1)` used by the source notebook. -/
def deg (A : Matrix (Fin n) (Fin n) ℚ) (i : Fin n) : ℚ := ∑ j, A i j

/-- Source: `D_inv = 1.0 / A.sum(axis=1); D_inv = np.diagflat(D_inv)`. -/
def D_inv (A : Matrix (Fin n) (Fin n) ℚ) : Matrix (Fin n) (Fin n) ℚ :=
  Matrix.diagonal fun i => (deg A i)⁻¹

/-- Source: `P = A @ D_inv`, the random-walk transition matrix. -/
def transition (A : Matrix (Fin n) (Fin n) ℚ) : Matrix (Fin n) (Fin n) ℚ :=
  A * D_inv A

/-- Sum of column `j` of a square matrix. -/
def colSum (M : Matrix (Fin n) (Fin n) ℚ) (j : Fin n) : ℚ := ∑ i, M i j

/-- Source (README, Laplacian eigenmaps notebook): `D = np.diag(A.sum(axis=1))`. -/
def degMatrix (A : Matrix (Fin n) (Fin n) ℚ) : Matrix (Fin n) (Fin n) ℚ :=
  Matrix.diagonal (deg A)

/-- Source: `L = D - A`, the unnormalized graph Laplacian. -/
def lap (A : Matrix (Fin n) (Fin n) ℚ) : Matrix (Fin n) (Fin n) ℚ :=
  degMatrix A - A

/-- Source: the one-hot restart vector `i` (`i = np.zeros((5,1)); i[1,0] = 1`). -/
def indicator (x : Fin n) : Fin n → ℚ := fun i => if i = x then 1 else 0

/-- Matrix inverse in the closed form `det⁻¹ • adjugate`; this is the computable
counterpart of the source's `matrix_power(M, -1)` on an invertible matrix. -/
def cfInv (M : Matrix (Fin n) (Fin n) ℚ) : Matrix (Fin n) (Fin n) ℚ :=
  M.det⁻¹ • M.adjugate

/-- Source: `PP_s = alpha * mp(( I - ( 1- alpha)* P), -1)`, the closed-form
Personalized PageRank matrix. -/
def pprMatrix (P : Matrix (Fin n) (Fin n) ℚ) (α : ℚ) : Matrix (Fin n) (Fin n) ℚ :=
  α • cfInv (1 - (1 - α) • P)

/-- Column-stochasticity: non-negative entries and every column sums to `1`. -/
def ColStochastic (P : Matrix (Fin n) (Fin n) ℚ) : Prop :=
  (∀ i j, 0 ≤ P i j) ∧ ∀ j, colSum P j = 1

/-- On a field, the closed-form inverse agrees with the matrix inverse. -/
theorem cfInv_eq_inv (M : Matrix (Fin n) (Fin n) ℚ) : cfInv M = M⁻¹ := by
  rw [cfInv, Matrix.inv_def, Ring.inverse_eq_inv']

/- ### Basic facts about the transition matrix -/

theorem transition_apply (A : Matrix (Fin n) (Fin n) ℚ) (i j : Fin n) :
    transition A i j = A i j * (deg A j)⁻¹ := by
  rw [transition, D_inv, Matrix.mul_diagonal]

/-- Column `j` of `P = A·D⁻¹` sums to `(∑ i, A i j) / deg A j`. -/
theorem colSum_transition (A : Matrix (Fin n) (Fin n) ℚ) (j : Fin n) :
    colSum (transition A) j = (∑ i, A i j) * (deg A j)⁻¹ := by
  unfold colSum
  simp only [transition_apply]
  rw [← Finset.sum_mul]

/-- Concrete 2-node directed adjacency matrix with non-negative entries and
positive degrees on which the transition-matrix columns do not sum to 1. -/
def cexA : Matrix (Fin 2) (Fin 2) ℚ := !![1, 0; 1, 1]

/-- C1 counterexample: `cexA` has non-negative entries and all degrees positive,
yet column 0 of `P = cexA · D⁻¹` sums to 2, not 1 (the claim quantifies over all
non-negative adjacency matrices, but `P`'s columns sum to 1 only when column sums
equal row sums, e.g. for symmetric `A`). -/
theorem transition_colSum_cex :
    (∀ i j, (0:ℚ) ≤ cexA i j) ∧ (∀ i, 0 < deg cexA i) ∧
      colSum (transition cexA) 0 ≠ 1 := by
  refine ⟨?_, ?_, ?_⟩
  · intro i j
    fin_cases i <;> fin_cases j <;> norm_num [cexA]
  · intro i
    fin_cases i <;> norm_num [deg, cexA, Fin.sum_univ_two]
  · norm_num [colSum, transition, cexA, D_inv, deg, Fin.sum_univ_two, Matrix.mul_apply]

/-- C1 (amended with symmetry of `A`, as holds for the source's undirected graph):
for every symmetric adjacency matrix with non-negative entries and all degrees
positive, each column of `P = A · D⁻¹` sums to 1. -/
theorem transition_colSum_eq_one (A : Matrix (Fin n) (Fin n) ℚ)
    (hsymm : A.IsSymm) (_hnn : ∀ i j, 0 ≤ A i j) (hpos : ∀ i, 0 < deg A i)
    (j : Fin n) : colSum (transition A) j = 1 := by
  have hcol : (∑ i, A i j) = deg A j := by
    rw [deg]
    exact Finset.sum_congr rfl fun i _ => by rw [← hsymm.apply i j]
  rw [colSum_transition, hcol, mul_inv_cancel₀ (ne_of_gt (hpos j))]

/-- Witness for the amended C1 theorem on the symmetric matrix `!![0,1;1,0]`. -/
theorem transition_colSum_eq_one_witness :
    colSum (transition !![(0:ℚ), 1; 1, 0]) 0 = 1 :=
  transition_colSum_eq_one !![(0:ℚ), 1; 1, 0]
    (by decide)
    (by intro i j; fin_cases i <;> fin_cases j <;> norm_num)
    (by intro i; fin_cases i <;> norm_num [deg, Fin.sum_univ_two])
    0

/- ### The Laplacian annihilates the all-ones vector -/

/-- C9: for every adjacency matrix `A` with `D = diag(row sums of A)`, the
Laplacian `L = D - A` annihilates the all-ones vector: `L · 1 = 0`. -/
theorem lap_mulVec_ones (A : Matrix (Fin n) (Fin n) ℚ) :
    (lap A).mulVec (fun _ => 1) = 0 := by
  funext i
  simp only [Matrix.mulVec, Matrix.dotProduct, mul_one, Pi.zero_apply]
  simp only [lap, degMatrix, Matrix.sub_apply, Finset.sum_sub_distrib]
  rw [Finset.sum_eq_single i (fun j _ hj => Matrix.diagonal_apply_ne (deg A) (Ne.symm hj))
    (fun h => absurd (Finset.mem_univ i) h)]
  rw [Matrix.diagonal_apply_eq, deg, sub_self]

/- ### Error-handling layer (modelled from the spec) -/

/-- Modelled from the spec: the error vocabulary of §7; the source notebook has no
validation code, the spec prescribes these errors. -/
inductive PRError where
  | degenerateGraph
  | invalidDampingFactor
  | nonConvergence
  deriving DecidableEq

/-- Modelled from the spec: the Transition-Matrix Builder component. The source
computes `P = A @ D_inv` with no validation; the spec prescribes rejecting any
input with a zero-degree node with `DegenerateGraphError`. -/
def buildTransition (A : Matrix (Fin n) (Fin n) ℚ) :
    Except PRError (Matrix (Fin n) (Fin n) ℚ) :=
  if ∀ i, deg A i ≠ 0 then .ok (transition A) else .error .degenerateGraph

/-- C6: the Transition-Matrix Builder fails with `DegenerateGraphError` on every
adjacency matrix containing a zero row, and returns the transition matrix
(raising no error) whenever all degrees are positive. -/
theorem buildTransition_spec (A : Matrix (Fin n) (Fin n) ℚ) :
    ((∃ i, ∀ j, A i j = 0) → buildTransition A = .error .degenerateGraph) ∧
      ((∀ i, 0 < deg A i) → buildTransition A = .ok (transition A)) := by
  constructor
  · rintro ⟨i, hi⟩
    have hdeg : deg A i = 0 := by
      rw [deg]
      exact Finset.sum_eq_zero fun j _ => hi j
    rw [buildTransition, if_neg]
    intro hall
    exact hall i hdeg
  · intro hpos
    rw [buildTransition, if_pos fun i => ne_of_gt (hpos i)]

/-- Witness for C6: the zero matrix is rejected and a positive-degree matrix is
accepted. -/
theorem buildTransition_spec_witness :
    buildTransition (0 : Matrix (Fin 2) (Fin 2) ℚ) = .error .degenerateGraph ∧
      buildTransition !![(0:ℚ), 1; 1, 0] = .ok (transition !![(0:ℚ), 1; 1, 0]) :=
  ⟨(buildTransition_spec 0).1 ⟨0, fun j => rfl⟩,
    (buildTransition_spec !![(0:ℚ), 1; 1, 0]).2
      (by intro i; fin_cases i <;> norm_num [deg, Fin.sum_univ_two])⟩

/-- Modelled from the spec: the Personalized PageRank solver with the damping
validation of §7; the source sets `alpha = 0.1` and computes
`PP_s = alpha * mp(I - (1 - alpha) * P, -1)` with no validation, the spec
prescribes rejecting `α` outside `(0, 1]` with `InvalidDampingFactorError`. -/
def pprSolve (P : Matrix (Fin n) (Fin n) ℚ) (α : ℚ) :
    Except PRError (Matrix (Fin n) (Fin n) ℚ) :=
  if 0 < α ∧ α ≤ 1 then .ok (pprMatrix P α) else .error .invalidDampingFactor

/-- C7: for every damping factor outside `(0, 1]` — in particular `α = 0` — the
Personalized PageRank solver answers `InvalidDampingFactorError` and never
reaches the matrix inversion. -/
theorem pprSolve_rejects (P : Matrix (Fin n) (Fin n) ℚ) (α : ℚ)
    (h : α ≤ 0 ∨ 1 < α) :
    pprSolve P α = .error .invalidDampingFactor := by
  rw [pprSolve, if_neg]
  rintro ⟨h0, h1⟩
  rcases h with h | h
  · exact absurd h0 (not_lt.mpr h)
  · exact absurd h1 (not_le.mpr h)

/-- Witness for C7 at the spec's own singular input `α = 0` (on a concrete
2-node transition matrix). -/
theorem pprSolve_rejects_witness :
    pprSolve !![(0:ℚ), 1; 1, 0] 0 = .error .invalidDampingFactor :=
  pprSolve_rejects !![(0:ℚ), 1; 1, 0] 0 (Or.inl le_rfl)

/- ### The damped fixed-point equation at the boundary value of the damping factor -/

/-- Modelled from the spec: the damped PageRank fixed-point equation exactly as the
spec writes it, `π = (1-α)·P·π + α·(1/n)·𝟙`, with the damping factor on the
uniform-teleport term. -/
def dampedEqSpec (P : Matrix (Fin n) (Fin n) ℚ) (α : ℚ) (p : Fin n → ℚ) : Prop :=
  p = (1 - α) • P.mulVec p + α • fun _ => (n : ℚ)⁻¹

/-- Damped PageRank fixed-point equation in the convention of the `pagerank`
routine the source calls with `alpha=1.0`, where the damping factor multiplies
the link-following term: `π = α·P·π + (1-α)·(1/n)·𝟙`. -/
def dampedEqCode (P : Matrix (Fin n) (Fin n) ℚ) (α : ℚ) (p : Fin n → ℚ) : Prop :=
  p = α • P.mulVec p + (1 - α) • fun _ => (n : ℚ)⁻¹

/-- Transition matrix of the 3-node path graph `0 - 1 - 2` (all degrees positive). -/
def pathP : Matrix (Fin 3) (Fin 3) ℚ := transition !![0, 1, 0; 1, 0, 1; 0, 1, 0]

/-- C4 counterexample: with the equation as the claim writes it
(`π = (1-α)·P·π + α·(1/n)·𝟙`), at `α = 1` the uniform vector solves the equation
on the path-graph transition matrix, yet it is not a fixed point of `P`: the
claim's convention degenerates at `α = 1` to the uniform vector, not to
`π = P·π`. -/
theorem damped_alpha_one_cex :
    dampedEqSpec pathP 1 (fun _ => (3:ℚ)⁻¹) ∧
      ¬ pathP.mulVec (fun _ => (3:ℚ)⁻¹) = fun _ => (3:ℚ)⁻¹ := by
  constructor
  · funext i
    fin_cases i <;>
      norm_num [dampedEqSpec, pathP, transition, D_inv, deg, Matrix.mulVec,
        Matrix.dotProduct, Fin.sum_univ_three, Matrix.mul_apply]
  · intro h
    have h0 := congrFun h 0
    rw [show pathP.mulVec (fun _ => (3:ℚ)⁻¹) 0 = 1/6 by
      norm_num [pathP, transition, D_inv, deg, Matrix.mulVec, Matrix.dotProduct,
        Fin.sum_univ_three, Matrix.mul_apply, Matrix.diagonal_apply]] at h0
    norm_num at h0

/-- C4 (amended to the damping convention of the code's `pagerank` call, where
`α` multiplies the link-following term): specialized at `α = 1`, the damped
fixed-point equation degenerates to the undamped stationary equation — its
solutions are exactly the vectors with `P·π = π`. -/
theorem dampedEqCode_one_iff (P : Matrix (Fin n) (Fin n) ℚ) (p : Fin n → ℚ) :
    dampedEqCode P 1 p ↔ P.mulVec p = p := by
  rw [dampedEqCode]
  constructor
  · intro h
    rw [one_smul, sub_self, zero_smul, add_zero] at h
    exact h.symm
  · intro h
    rw [one_smul, sub_self, zero_smul, add_zero, h]

/- ### Undirected graphs and the degree-ratio stationary distribution -/

/-- Rational 0/1 adjacency matrix of a Boolean adjacency relation (the matrix
`A = nx.adjacency_matrix(G).todense()` of the source's undirected graph). -/
def adjMatrix (adjB : Fin n → Fin n → Bool) : Matrix (Fin n) (Fin n) ℚ :=
  Matrix.of fun i j => if adjB i j then 1 else 0

/-- Degree of a node as a natural number: the number of its neighbours. -/
def degN (adjB : Fin n → Fin n → Bool) (i : Fin n) : ℕ :=
  ∑ j, if adjB i j then 1 else 0

/-- Number of undirected edges: adjacent ordered pairs `(i, j)` with `i < j`. -/
def edgeCount (adjB : Fin n → Fin n → Bool) : ℕ :=
  ∑ i, ∑ j, if i < j ∧ adjB i j then 1 else 0

/-- Handshake lemma: over a symmetric loop-free adjacency relation the degrees
sum to twice the number of edges. -/
theorem handshake (adjB : Fin n → Fin n → Bool)
    (hsymm : ∀ i j, adjB i j = adjB j i) (hloop : ∀ i, adjB i i = false) :
    ∑ i, degN adjB i = 2 * edgeCount adjB := by
  have key : ∀ i j : Fin n, (if adjB i j then (1:ℕ) else 0) =
      (if i < j ∧ adjB i j then 1 else 0) + (if j < i ∧ adjB i j then 1 else 0) := by
    intro i j
    rcases lt_trichotomy i j with h | h | h
    · by_cases ha : adjB i j <;> simp [h, ha, not_lt_of_gt h]
    · subst h
      simp [hloop i]
    · by_cases ha : adjB i j <;> simp [h, ha, not_lt_of_gt h]
  have hsplit : ∑ i, degN adjB i =
      (∑ i, ∑ j, if i < j ∧ adjB i j then (1:ℕ) else 0) +
        ∑ i, ∑ j, if j < i ∧ adjB i j then (1:ℕ) else 0 := by
    unfold degN
    rw [← Finset.sum_add_distrib]
    refine Finset.sum_congr rfl fun i _ => ?_
    rw [← Finset.sum_add_distrib]
    exact Finset.sum_congr rfl fun j _ => key i j
  have hswap : (∑ i, ∑ j, if j < i ∧ adjB i j then (1:ℕ) else 0) = edgeCount adjB := by
    rw [Finset.sum_comm]
    unfold edgeCount
    refine Finset.sum_congr rfl fun j _ => Finset.sum_congr rfl fun i _ => ?_
    rw [hsymm i j]
  rw [hsplit, hswap, edgeCount, two_mul]

/-- Degrees of the 0/1 adjacency matrix agree with the neighbour counts. -/
theorem deg_adjMatrix (adjB : Fin n → Fin n → Bool) (i : Fin n) :
    deg (adjMatrix adjB) i = (degN adjB i : ℚ) := by
  rw [deg, degN, Nat.cast_sum]
  refine Finset.sum_congr rfl fun j _ => ?_
  by_cases h : adjB i j <;> simp [adjMatrix, h]

/-- C5: over an undirected loop-free graph in which every node has positive
degree, the degrees sum to `2·|E|`, and the vector whose entry at `v` is
`deg(v) / (2·|E|)` is a fixed point of the transition matrix `P = A·D⁻¹` and
sums to 1 — the undamped stationary distribution is the degree ratio. -/
theorem stationary_degree_ratio (adjB : Fin n → Fin n → Bool) (hn : 0 < n)
    (hsymm : ∀ i j, adjB i j = adjB j i) (hloop : ∀ i, adjB i i = false)
    (hdeg : ∀ i, 0 < degN adjB i) :
    (∑ i, degN adjB i = 2 * edgeCount adjB) ∧
      (transition (adjMatrix adjB)).mulVec
          (fun v => (degN adjB v : ℚ) / (2 * edgeCount adjB)) =
        (fun v => (degN adjB v : ℚ) / (2 * edgeCount adjB)) ∧
      ∑ v, (degN adjB v : ℚ) / (2 * edgeCount adjB) = 1 := by
  have hand := handshake adjB hsymm hloop
  have hEC : 0 < edgeCount adjB := by
    rcases Nat.eq_zero_or_pos (edgeCount adjB) with h | h
    · exfalso
      have h1 : 0 < ∑ i, degN adjB i :=
        lt_of_lt_of_le (hdeg ⟨0, hn⟩)
          (Finset.single_le_sum (fun i _ => Nat.zero_le _) (Finset.mem_univ ⟨0, hn⟩))
      rw [hand, h, mul_zero] at h1
      exact lt_irrefl 0 h1
    · exact h
  have hS : (2 * (edgeCount adjB : ℚ)) ≠ 0 :=
    mul_ne_zero two_ne_zero (Nat.cast_ne_zero.mpr (Nat.pos_iff_ne_zero.mp hEC))
  have hd : ∀ j, ((degN adjB j : ℚ)) ≠ 0 :=
    fun j => Nat.cast_ne_zero.mpr (Nat.pos_iff_ne_zero.mp (hdeg j))
  refine ⟨hand, ?_, ?_⟩
  · funext i
    show (∑ j, transition (adjMatrix adjB) i j *
        ((degN adjB j : ℚ) / (2 * (edgeCount adjB : ℚ)))) = _
    have hterm : ∀ j, transition (adjMatrix adjB) i j *
        ((degN adjB j : ℚ) / (2 * (edgeCount adjB : ℚ))) =
        adjMatrix adjB i j * (2 * (edgeCount adjB : ℚ))⁻¹ := by
      intro j
      rw [transition_apply, deg_adjMatrix, div_eq_mul_inv]
      calc adjMatrix adjB i j * ((degN adjB j : ℚ))⁻¹ *
            ((degN adjB j : ℚ) * (2 * (edgeCount adjB : ℚ))⁻¹)
          = adjMatrix adjB i j * (((degN adjB j : ℚ))⁻¹ * (degN adjB j : ℚ)) *
            (2 * (edgeCount adjB : ℚ))⁻¹ := by ring
        _ = adjMatrix adjB i j * (2 * (edgeCount adjB : ℚ))⁻¹ := by
            rw [inv_mul_cancel₀ (hd j), mul_one]
    rw [Finset.sum_congr rfl fun j _ => hterm j, ← Finset.sum_mul]
    rw [show (∑ j, adjMatrix adjB i j) = deg (adjMatrix adjB) i from rfl, deg_adjMatrix,
      div_eq_mul_inv]
  · rw [← Finset.sum_div, ← Nat.cast_sum]
    rw [show ((∑ i, degN adjB i : ℕ) : ℚ) = ((2 * edgeCount adjB : ℕ) : ℚ) by rw [hand]]
    push_cast
    rw [div_self hS]

/-- Concrete 5-node, 6-edge undirected graph (degrees 3, 2, 3, 2, 2) used as a
witness; node 0 has degree 3, matching the source's `3/(2*6) = 0.25` example. -/
def wAdj : Fin 5 → Fin 5 → Bool := fun i j =>
  decide ((i.val, j.val) ∈ [(0,1), (1,0), (0,2), (2,0), (0,3), (3,0),
    (1,2), (2,1), (2,4), (4,2), (3,4), (4,3)])

/-- Witness for C5 on the concrete 5-node graph. -/
theorem stationary_degree_ratio_witness :
    (∑ i, degN wAdj i = 2 * edgeCount wAdj) ∧
      (transition (adjMatrix wAdj)).mulVec
          (fun v => (degN wAdj v : ℚ) / (2 * edgeCount wAdj)) =
        (fun v => (degN wAdj v : ℚ) / (2 * edgeCount wAdj)) ∧
      ∑ v, (degN wAdj v : ℚ) / (2 * edgeCount wAdj) = 1 :=
  stationary_degree_ratio wAdj (by decide) (by decide) (by decide) (by decide)

/- ### Column sums: basic algebra -/

theorem colSum_one (j : Fin n) : colSum (1 : Matrix (Fin n) (Fin n) ℚ) j = 1 := by
  rw [colSum]
  rw [Finset.sum_eq_single j (fun i _ hi => Matrix.one_apply_ne hi)
    (fun h => absurd (Finset.mem_univ j) h)]
  exact Matrix.one_apply_eq j

theorem colSum_smul (c : ℚ) (M : Matrix (Fin n) (Fin n) ℚ) (j : Fin n) :
    colSum (c • M) j = c * colSum M j := by
  rw [colSum, colSum, Finset.mul_sum]
  exact Finset.sum_congr rfl fun i _ => by rw [Matrix.smul_apply, smul_eq_mul]

theorem colSum_sub (M N : Matrix (Fin n) (Fin n) ℚ) (j : Fin n) :
    colSum (M - N) j = colSum M j - colSum N j := by
  rw [colSum, colSum, colSum, ← Finset.sum_sub_distrib]
  exact Finset.sum_congr rfl fun i _ => rfl

theorem colSum_mul (M N : Matrix (Fin n) (Fin n) ℚ) (j : Fin n) :
    colSum (M * N) j = ∑ l, colSum M l * N l j := by
  rw [colSum]
  simp only [Matrix.mul_apply]
  rw [Finset.sum_comm]
  exact Finset.sum_congr rfl fun l _ => by rw [colSum, Finset.sum_mul]

/-- Every column of `I - (1-α)·P̄` sums to `α` when `P̄` is column-stochastic. -/
theorem colSum_stochSub (P : Matrix (Fin n) (Fin n) ℚ) (α : ℚ)
    (hP : ColStochastic P) (j : Fin n) :
    colSum (1 - (1 - α) • P) j = α := by
  rw [colSum_sub, colSum_one, colSum_smul, hP.2 j, mul_one]
  ring

/- ### Invertibility of `I - (1-α)·P̄` -/

/-- Determinant of `I - (1-α)·P̄` is nonzero for a column-stochastic `P̄` and
`α ∈ (0,1)`: the transpose kills no nonzero vector (maximum-entry argument). -/
theorem stochSub_det_ne_zero (P : Matrix (Fin n) (Fin n) ℚ) (α : ℚ)
    (hP : ColStochastic P) (hα0 : 0 < α) (hα1 : α < 1) :
    (1 - (1 - α) • P).det ≠ 0 := by
  set M : Matrix (Fin n) (Fin n) ℚ := 1 - (1 - α) • P with hM
  rw [← Matrix.det_transpose]
  intro hdet
  obtain ⟨v, hv, hMv⟩ := Matrix.exists_mulVec_eq_zero_iff.mpr hdet
  obtain ⟨k, hk⟩ := Function.ne_iff.mp hv
  obtain ⟨i0, -, hi0⟩ := Finset.exists_max_image Finset.univ (fun l => |v l|)
    ⟨k, Finset.mem_univ k⟩
  have hi0' : ∀ l, |v l| ≤ |v i0| := fun l => hi0 l (Finset.mem_univ l)
  have heq : v i0 = (1 - α) * ∑ j, P j i0 * v j := by
    have h0 := congrFun hMv i0
    rw [Matrix.mulVec, Matrix.dotProduct, Pi.zero_apply] at h0
    have hterm : ∀ j, Mᵀ i0 j * v j =
        (if j = i0 then v j else 0) - (1 - α) * (P j i0 * v j) := by
      intro j
      rw [Matrix.transpose_apply, hM, Matrix.sub_apply, Matrix.smul_apply,
        Matrix.one_apply, smul_eq_mul]
      by_cases h : j = i0 <;> simp [h] <;> ring
    rw [Finset.sum_congr rfl fun j _ => hterm j, Finset.sum_sub_distrib,
      Finset.sum_ite_eq' Finset.univ i0 v, if_pos (Finset.mem_univ i0),
      ← Finset.mul_sum] at h0
    linarith [h0]
  have h1α : (0:ℚ) ≤ 1 - α := by linarith
  have habs : |v i0| ≤ (1 - α) * |v i0| := by
    calc |v i0| = |(1 - α) * ∑ j, P j i0 * v j| := by rw [heq]
      _ = (1 - α) * |∑ j, P j i0 * v j| := by rw [abs_mul, abs_of_nonneg h1α]
      _ ≤ (1 - α) * ∑ j, |P j i0 * v j| :=
          mul_le_mul_of_nonneg_left (Finset.abs_sum_le_sum_abs _ _) h1α
      _ = (1 - α) * ∑ j, P j i0 * |v j| := by
          refine congrArg _ (Finset.sum_congr rfl fun j _ => ?_)
          rw [abs_mul, abs_of_nonneg (hP.1 j i0)]
      _ ≤ (1 - α) * ∑ j, P j i0 * |v i0| := by
          refine mul_le_mul_of_nonneg_left (Finset.sum_le_sum fun j _ => ?_) h1α
          exact mul_le_mul_of_nonneg_left (hi0' j) (hP.1 j i0)
      _ = (1 - α) * ((∑ j, P j i0) * |v i0|) := by rw [Finset.sum_mul]
      _ = (1 - α) * |v i0| := by
          rw [show (∑ j, P j i0) = colSum P i0 from rfl, hP.2 i0, one_mul]
  have hpos : 0 < |v i0| := lt_of_lt_of_le (abs_pos.mpr hk) (hi0' k)
  nlinarith

/-- The matrix `I - (1-α)·P̄` is a unit for column-stochastic `P̄`, `α ∈ (0,1)`. -/
theorem stochSub_isUnit (P : Matrix (Fin n) (Fin n) ℚ) (α : ℚ)
    (hP : ColStochastic P) (hα0 : 0 < α) (hα1 : α < 1) :
    IsUnit (1 - (1 - α) • P) := by
  rw [Matrix.isUnit_iff_isUnit_det, isUnit_iff_ne_zero]
  exact stochSub_det_ne_zero P α hP hα0 hα1

/- ### Entrywise non-negativity of the inverse (Neumann-tail argument) -/

theorem pow_entry_nonneg (B : Matrix (Fin n) (Fin n) ℚ)
    (hB : ∀ i j, 0 ≤ B i j) (k : ℕ) : ∀ i j, 0 ≤ (B ^ k) i j := by
  induction k with
  | zero =>
      intro i j
      rw [pow_zero]
      by_cases h : i = j
      · rw [h, Matrix.one_apply_eq]
        exact zero_le_one
      · rw [Matrix.one_apply_ne h]
  | succ k ih =>
      intro i j
      rw [pow_succ, Matrix.mul_apply]
      exact Finset.sum_nonneg fun l _ => mul_nonneg (ih i l) (hB l j)

theorem colSum_pow (B : Matrix (Fin n) (Fin n) ℚ) (r : ℚ)
    (hc : ∀ j, colSum B j = r) (k : ℕ) : ∀ j, colSum (B ^ k) j = r ^ k := by
  induction k with
  | zero =>
      intro j
      rw [pow_zero, pow_zero, colSum_one]
  | succ k ih =>
      intro j
      rw [pow_succ, colSum_mul]
      calc (∑ l, colSum (B ^ k) l * B l j) = ∑ l, r ^ k * B l j :=
            Finset.sum_congr rfl fun l _ => by rw [ih l]
        _ = r ^ k * colSum B j := by rw [colSum, Finset.mul_sum]
        _ = r ^ (k + 1) := by rw [hc j, pow_succ]

theorem one_sub_mul_geomSum (B : Matrix (Fin n) (Fin n) ℚ) (N : ℕ) :
    (1 - B) * (∑ k ∈ Finset.range N, B ^ k) = 1 - B ^ N := by
  induction N with
  | zero => simp
  | succ N ih =>
      rw [Finset.sum_range_succ, Matrix.mul_add, ih, pow_succ']
      rw [sub_mul, Matrix.one_mul]
      abel

/-- Decomposition of the inverse of `1 - B` into a finite geometric sum plus a
tail: `(1-B)⁻¹ = ∑_{k<N} Bᵏ + (1-B)⁻¹ · B^N`. -/
theorem inv_eq_geomSum_add (B : Matrix (Fin n) (Fin n) ℚ)
    (hdet : (1 - B).det ≠ 0) (N : ℕ) :
    (1 - B)⁻¹ = (∑ k ∈ Finset.range N, B ^ k) + (1 - B)⁻¹ * B ^ N := by
  have h1 := one_sub_mul_geomSum B N
  have h2 := congrArg (fun X => (1 - B)⁻¹ * X) h1
  simp only at h2
  rw [← Matrix.mul_assoc, Matrix.nonsing_inv_mul _ (isUnit_iff_ne_zero.mpr hdet),
    Matrix.one_mul, Matrix.mul_sub, Matrix.mul_one] at h2
  rw [h2]
  abel

/-- Every entry of `(I - (1-α)·P̄)⁻¹` is non-negative for column-stochastic `P̄`
and `α ∈ (0,1)`. -/
theorem stochSub_inv_nonneg (P : Matrix (Fin n) (Fin n) ℚ) (α : ℚ)
    (hP : ColStochastic P) (hα0 : 0 < α) (hα1 : α < 1) :
    ∀ i j, 0 ≤ (1 - (1 - α) • P)⁻¹ i j := by
  intro i j
  set B : Matrix (Fin n) (Fin n) ℚ := (1 - α) • P with hB
  have hdet : (1 - B).det ≠ 0 := stochSub_det_ne_zero P α hP hα0 hα1
  have h1α : (0:ℚ) ≤ 1 - α := by linarith
  have hBnn : ∀ a b, 0 ≤ B a b := fun a b => by
    rw [hB, Matrix.smul_apply, smul_eq_mul]
    exact mul_nonneg h1α (hP.1 a b)
  have hBcs : ∀ l, colSum B l = 1 - α := fun l => by
    rw [hB, colSum_smul, hP.2 l, mul_one]
  obtain ⟨l0, -, hl0⟩ := Finset.exists_max_image Finset.univ
    (fun l => |(1 - B)⁻¹ i l|) ⟨i, Finset.mem_univ i⟩
  set C := |(1 - B)⁻¹ i l0| with hC
  have hCb : ∀ l, |(1 - B)⁻¹ i l| ≤ C := fun l => hl0 l (Finset.mem_univ l)
  have hbound : ∀ N : ℕ, -(C * (1 - α) ^ N) ≤ (1 - B)⁻¹ i j := by
    intro N
    have hgeom_nn : 0 ≤ (∑ k ∈ Finset.range N, B ^ k) i j := by
      rw [Matrix.sum_apply]
      exact Finset.sum_nonneg fun k _ => pow_entry_nonneg B hBnn k i j
    have htail : -(C * (1 - α) ^ N) ≤ ((1 - B)⁻¹ * B ^ N) i j := by
      rw [Matrix.mul_apply]
      calc -(C * (1 - α) ^ N) = ∑ l, -C * (B ^ N) l j := by
            rw [← Finset.mul_sum,
              show (∑ l, (B ^ N) l j) = colSum (B ^ N) j from rfl,
              colSum_pow B (1 - α) hBcs N j]
            ring
        _ ≤ ∑ l, (1 - B)⁻¹ i l * (B ^ N) l j :=
            Finset.sum_le_sum fun l _ =>
              mul_le_mul_of_nonneg_right (neg_le_of_abs_le (hCb l))
                (pow_entry_nonneg B hBnn N l j)
    calc -(C * (1 - α) ^ N) ≤ ((1 - B)⁻¹ * B ^ N) i j := htail
      _ ≤ (∑ k ∈ Finset.range N, B ^ k) i j + ((1 - B)⁻¹ * B ^ N) i j :=
          le_add_of_nonneg_left hgeom_nn
      _ = (1 - B)⁻¹ i j := by rw [← Matrix.add_apply, ← inv_eq_geomSum_add B hdet N]
  by_contra hneg
  push_neg at hneg
  have hC0 : 0 ≤ C := abs_nonneg _
  obtain ⟨N, hN⟩ : ∃ N : ℕ, C * (1 - α) ^ N < -((1 - B)⁻¹ i j) := by
    rcases eq_or_lt_of_le hC0 with hC0' | hC0'
    · exact ⟨0, by rw [← hC0', zero_mul]; linarith⟩
    · obtain ⟨N, hN⟩ := exists_pow_lt_of_lt_one
        (div_pos (by linarith : (0:ℚ) < -((1 - B)⁻¹ i j)) hC0') (by linarith : 1 - α < 1)
      exact ⟨N, by rwa [lt_div_iff₀ hC0', mul_comm] at hN⟩
  linarith [hbound N]

/- ### Column sums of the inverse -/

theorem colSum_inv (M : Matrix (Fin n) (Fin n) ℚ) (α : ℚ)
    (hdet : M.det ≠ 0) (hcs : ∀ l, colSum M l = α) (x : Fin n) :
    colSum M⁻¹ x = α⁻¹ := by
  have h1 : colSum (M * M⁻¹) x = α * colSum M⁻¹ x := by
    rw [colSum_mul]
    calc (∑ l, colSum M l * M⁻¹ l x) = ∑ l, α * M⁻¹ l x :=
          Finset.sum_congr rfl fun l _ => by rw [hcs l]
      _ = α * colSum M⁻¹ x := by rw [colSum, Finset.mul_sum]
  rw [Matrix.mul_nonsing_inv _ (isUnit_iff_ne_zero.mpr hdet), colSum_one] at h1
  exact eq_inv_of_mul_eq_one_right h1.symm

/- ### Claim C2: the closed-form Personalized PageRank is a probability vector -/

theorem mulVec_indicator (M : Matrix (Fin n) (Fin n) ℚ) (x : Fin n) :
    M.mulVec (indicator x) = fun i => M i x := by
  funext i
  rw [Matrix.mulVec, Matrix.dotProduct]
  rw [Finset.sum_congr rfl fun j _ => show M i j * indicator x j =
    if j = x then M i j else 0 by rw [indicator]; by_cases h : j = x <;> simp [h]]
  rw [Finset.sum_ite_eq' Finset.univ x (fun j => M i j), if_pos (Finset.mem_univ x)]

/-- C2: for every column-stochastic transition matrix `P̄` and every damping
factor `α ∈ (0,1)`, `I - (1-α)·P̄` is invertible, and for every restart node `x`
the closed-form result `π = α·(I - (1-α)·P̄)⁻¹·i_x` has non-negative entries and
sums to 1. -/
theorem ppr_closed_form_valid (P : Matrix (Fin n) (Fin n) ℚ) (α : ℚ) (x : Fin n)
    (hP : ColStochastic P) (hα0 : 0 < α) (hα1 : α < 1) :
    IsUnit (1 - (1 - α) • P) ∧
      (∀ i, 0 ≤ (pprMatrix P α).mulVec (indicator x) i) ∧
      ∑ i, (pprMatrix P α).mulVec (indicator x) i = 1 := by
  have hdet : (1 - (1 - α) • P).det ≠ 0 := stochSub_det_ne_zero P α hP hα0 hα1
  have happly : ∀ i, (pprMatrix P α).mulVec (indicator x) i =
      α * (1 - (1 - α) • P)⁻¹ i x := by
    intro i
    rw [mulVec_indicator]
    simp only [pprMatrix, cfInv_eq_inv, Matrix.smul_apply, smul_eq_mul]
  refine ⟨stochSub_isUnit P α hP hα0 hα1, ?_, ?_⟩
  · intro i
    rw [happly i]
    exact mul_nonneg (le_of_lt hα0) (stochSub_inv_nonneg P α hP hα0 hα1 i x)
  · rw [Finset.sum_congr rfl fun i _ => happly i, ← Finset.mul_sum]
    rw [show (∑ i, (1 - (1 - α) • P)⁻¹ i x) = colSum (1 - (1 - α) • P)⁻¹ x from rfl]
    rw [colSum_inv _ α hdet (colSum_stochSub P α hP) x]
    exact mul_inv_cancel₀ (ne_of_gt hα0)

/-- Witness for C2 on the 2-node column-stochastic matrix `!![0,1;1,0]` with
`α = 1/2` and restart node 0. -/
theorem ppr_closed_form_valid_witness :
    ColStochastic !![(0:ℚ), 1; 1, 0] ∧
      (IsUnit (1 - (1 - (1/2 : ℚ)) • !![(0:ℚ), 1; 1, 0]) ∧
        (∀ i, 0 ≤ (pprMatrix !![(0:ℚ), 1; 1, 0] (1/2)).mulVec (indicator 0) i) ∧
        ∑ i, (pprMatrix !![(0:ℚ), 1; 1, 0] (1/2)).mulVec (indicator 0) i = 1) := by
  have hcs : ColStochastic !![(0:ℚ), 1; 1, 0] := by
    constructor
    · intro i j
      fin_cases i <;> fin_cases j <;> norm_num
    · intro j
      fin_cases j <;> norm_num [colSum, Fin.sum_univ_two]
  exact ⟨hcs, ppr_closed_form_valid _ _ 0 hcs (by norm_num) (by norm_num)⟩

/- ### Claim C8: personalized columns are pairwise distinct -/

/-- Transition matrices of symmetric non-negative adjacency matrices with
positive degrees are column-stochastic. -/
theorem transition_colStochastic (A : Matrix (Fin n) (Fin n) ℚ)
    (hsymm : A.IsSymm) (hnn : ∀ i j, 0 ≤ A i j) (hpos : ∀ i, 0 < deg A i) :
    ColStochastic (transition A) := by
  constructor
  · intro i j
    rw [transition_apply]
    exact mul_nonneg (hnn i j) (inv_nonneg.mpr (le_of_lt (hpos j)))
  · exact transition_colSum_eq_one A hsymm hnn hpos

/-- C8: over a graph with at least two nodes (witnessed by `x ≠ y`), symmetric
non-negative adjacency and all degrees positive, and `α ∈ (0,1)`, the columns of
the Personalized PageRank matrix `α·(I - (1-α)·P̄)⁻¹` at two distinct restart
nodes are distinct: the stationary vector depends on the restart node. -/
theorem ppr_columns_distinct (A : Matrix (Fin n) (Fin n) ℚ) (α : ℚ) (x y : Fin n)
    (hsymm : A.IsSymm) (hnn : ∀ i j, 0 ≤ A i j) (hpos : ∀ i, 0 < deg A i)
    (hα0 : 0 < α) (hα1 : α < 1) (hxy : x ≠ y) :
    (fun i => pprMatrix (transition A) α i x) ≠
      fun i => pprMatrix (transition A) α i y := by
  have hP : ColStochastic (transition A) := transition_colStochastic A hsymm hnn hpos
  have hdet : (1 - (1 - α) • transition A).det ≠ 0 :=
    stochSub_det_ne_zero (transition A) α hP hα0 hα1
  intro h
  have hMinv : ∀ i, (1 - (1 - α) • transition A)⁻¹ i x =
      (1 - (1 - α) • transition A)⁻¹ i y := by
    intro i
    have hi := congrFun h i
    simp only [pprMatrix, cfInv_eq_inv, Matrix.smul_apply, smul_eq_mul] at hi
    exact mul_left_cancel₀ (ne_of_gt hα0) hi
  have h1 : ((1 - (1 - α) • transition A) * (1 - (1 - α) • transition A)⁻¹) x x =
      ((1 - (1 - α) • transition A) * (1 - (1 - α) • transition A)⁻¹) x y := by
    rw [Matrix.mul_apply, Matrix.mul_apply]
    exact Finset.sum_congr rfl fun l _ => by rw [hMinv l]
  rw [Matrix.mul_nonsing_inv _ (isUnit_iff_ne_zero.mpr hdet)] at h1
  rw [Matrix.one_apply_eq, Matrix.one_apply_ne hxy] at h1
  exact one_ne_zero h1

/-- Witness for C8 on the 2-node complete graph with `α = 1/2`. -/
theorem ppr_columns_distinct_witness :
    (fun i => pprMatrix (transition !![(0:ℚ), 1; 1, 0]) (1/2) i 0) ≠
      fun i => pprMatrix (transition !![(0:ℚ), 1; 1, 0]) (1/2) i 1 :=
  ppr_columns_distinct !![(0:ℚ), 1; 1, 0] (1/2) 0 1
    (by ext i j; fin_cases i <;> fin_cases j <;> rfl)
    (by intro i j; fin_cases i <;> fin_cases j <;> norm_num)
    (by intro i; fin_cases i <;> norm_num [deg, Fin.sum_univ_two])
    (by norm_num) (by norm_num) (by decide)

/- ### Laplacian spectral embedder -/

/-- Source: `order = np.argsort(w)` — node indices sorted by ascending
eigenvalue (ties resolved arbitrarily, as by the source's sort). -/
def argsortQ (w : Fin n → ℚ) : List (Fin n) :=
  (List.finRange n).mergeSort fun i j => decide (w i ≤ w j)

/-- Source: `v = v[:, order[1:(embedding_size+1)]]` — the columns of `v` at
positions `1, …, k` of the sorted order; numpy slicing clamps the range at the
end of the array, which `drop`/`take` reproduce. -/
def spectralEmbed (w : Fin n → ℚ) (v : Matrix (Fin n) (Fin n) ℚ) (k : ℕ) :
    List (Fin n → ℚ) :=
  (((argsortQ w).drop 1).take k).map fun j => fun r => v r j

/-- Source: `w = w[order]` — the eigenvalues in ascending order. -/
def sortedEigs (w : Fin n → ℚ) : List ℚ := (argsortQ w).map w

theorem argsortQ_length (w : Fin n → ℚ) : (argsortQ w).length = n := by
  rw [argsortQ, List.length_mergeSort, List.length_finRange]

theorem argsortQ_pairwise (w : Fin n → ℚ) :
    (argsortQ w).Pairwise fun i j => w i ≤ w j := by
  have h : ((List.finRange n).mergeSort fun i j => decide (w i ≤ w j)).Pairwise
      fun i j => decide (w i ≤ w j) = true := by
    apply List.sorted_mergeSort
    · intro a b c hab hbc
      simp only [decide_eq_true_eq] at hab hbc ⊢
      exact le_trans hab hbc
    · intro a b
      rcases le_total (w a) (w b) with h | h
      · simp [h]
      · simp [h]
  rw [argsortQ]
  exact h.imp fun hab => by simpa using hab

theorem argsortQ_mem (w : Fin n → ℚ) (i : Fin n) : i ∈ argsortQ w := by
  rw [argsortQ, List.mem_mergeSort]
  exact List.mem_finRange i

theorem spectralEmbed_length (w : Fin n → ℚ) (v : Matrix (Fin n) (Fin n) ℚ)
    (k : ℕ) : (spectralEmbed w v k).length = min k (n - 1) := by
  rw [spectralEmbed, List.length_map, List.length_take, List.length_drop,
    argsortQ_length]

/-- C3: given eigendata `(w, v)` of the Laplacian `L` (one eigenpair per column,
as returned — after taking real components — by the eigendecomposition) and an
embedding size `k` with `k + 1 ≤ n`, the embedder sorts by ascending eigenvalue,
returns exactly `k` columns of `v` (each an `n`-vector, one row per node), the
`t`-th returned column being an eigenvector whose eigenvalue is the
`(t+1)`-smallest, and discards the column of the zero eigenvalue (the smallest
one, when `w` is non-negative with a zero entry, as for a Laplacian). -/
theorem spectralEmbed_spec (L : Matrix (Fin n) (Fin n) ℚ) (w : Fin n → ℚ)
    (v : Matrix (Fin n) (Fin n) ℚ) (k : ℕ)
    (heig : ∀ i, L.mulVec (fun r => v r i) = w i • fun r => v r i)
    (hk : k + 1 ≤ n) (hnn : ∀ i, 0 ≤ w i) (h0 : ∃ i, w i = 0) :
    (spectralEmbed w v k).length = k ∧
      (sortedEigs w).Pairwise (· ≤ ·) ∧
      (∀ t, t < k → ∃ j : Fin n,
        (spectralEmbed w v k).getD t (fun _ => 0) = (fun r => v r j) ∧
        L.mulVec (fun r => v r j) = w j • (fun r => v r j) ∧
        (sortedEigs w).getD (t + 1) 0 = w j) ∧
      (∃ j0 : Fin n, (argsortQ w).head? = some j0 ∧ w j0 = 0) := by
  have hlen : (spectralEmbed w v k).length = k := by
    rw [spectralEmbed_length]
    omega
  refine ⟨hlen, ?_, ?_, ?_⟩
  · rw [sortedEigs, List.pairwise_map]
    exact argsortQ_pairwise w
  · intro t ht
    have ht1 : 1 + t < (argsortQ w).length := by rw [argsortQ_length]; omega
    refine ⟨(argsortQ w).get ⟨1 + t, ht1⟩, ?_, heig _, ?_⟩
    · have htlen : t < (spectralEmbed w v k).length := by rw [hlen]; exact ht
      rw [List.getD_eq_getElem?_getD, List.getElem?_eq_getElem htlen, Option.getD_some]
      simp only [spectralEmbed, List.getElem_map, List.getElem_take, List.getElem_drop,
        List.get_eq_getElem]
    · rw [show t + 1 = 1 + t from Nat.add_comm t 1]
      have ht1' : 1 + t < (sortedEigs w).length := by
        rw [sortedEigs, List.length_map, argsortQ_length]
        omega
      rw [List.getD_eq_getElem?_getD, List.getElem?_eq_getElem ht1', Option.getD_some]
      simp only [sortedEigs, List.getElem_map, List.get_eq_getElem]
  · obtain ⟨i0, hi0⟩ := h0
    have hne : argsortQ w ≠ [] := by
      intro h
      have := argsortQ_mem w i0
      rw [h] at this
      exact List.not_mem_nil i0 this
    obtain ⟨j0, rest, hcons⟩ := List.exists_cons_of_ne_nil hne
    refine ⟨j0, by rw [hcons]; rfl, ?_⟩
    have hmem := argsortQ_mem w i0
    rw [hcons] at hmem
    have hpw := argsortQ_pairwise w
    rw [hcons, List.pairwise_cons] at hpw
    rcases List.mem_cons.mp hmem with h | h
    · rw [← h]
      exact hi0
    · exact le_antisymm (hi0 ▸ hpw.1 i0 h) (hnn j0)

/-- Witness for C3: the 2-node complete-graph Laplacian with its eigendata
`w = (0, 2)`, `v = [[1,1],[1,-1]]` and embedding size 1. -/
theorem spectralEmbed_spec_witness :
    (spectralEmbed (![0, 2] : Fin 2 → ℚ) !![1, 1; 1, -1] 1).length = 1 :=
  (spectralEmbed_spec (lap !![(0:ℚ), 1; 1, 0]) ![0, 2] !![1, 1; 1, -1] 1
    (by
      intro i
      funext r
      fin_cases i <;> fin_cases r <;>
        norm_num [lap, degMatrix, deg, Matrix.mulVec, Matrix.dotProduct,
          Fin.sum_univ_two, Matrix.diagonal_apply, Matrix.sub_apply])
    (by omega)
    (by intro i; fin_cases i <;> norm_num)
    ⟨0, rfl⟩).1

/-- C10: for every embedding size `k ≥ n` the embedder raises no error and does
not return an `n × k` matrix: the slice `order[1:(k+1)]` clamps at the end of
the index array and exactly `min k (n-1) = n - 1` columns come back. -/
theorem spectralEmbed_clamps (w : Fin n → ℚ) (v : Matrix (Fin n) (Fin n) ℚ)
    (k : ℕ) (hk : n ≤ k) :
    (spectralEmbed w v k).length = n - 1 ∧ n - 1 = min k (n - 1) := by
  rw [spectralEmbed_length]
  omega

/-- Witness for C10: a 2-node instance with requested embedding size 5 returns
exactly 1 column. -/
theorem spectralEmbed_clamps_witness :
    (spectralEmbed (![0, 2] : Fin 2 → ℚ) !![1, 1; 1, -1] 5).length = 2 - 1 ∧
      2 - 1 = min 5 (2 - 1) :=
  spectralEmbed_clamps ![0, 2] !![1, 1; 1, -1] 5 (by omega)

end GraphRL
